import Mathlib

/-!
Verification development for the QuantX backtesting engine
(`backtester.py`, `strategies.py`, `app.py`).

Python floats are embedded as exact rationals; an IEEE NaN (pandas missing
value) is embedded as `none` in `Option ℚ`, and the arithmetic helpers
below propagate `none` the way float arithmetic propagates NaN.  Calendar
dates inside the simulator are identified with their positions in the
master calendar (the master calendar is sorted ascending, so position
order coincides with date order); the alignment layer maps integer day
numbers onto those positions.
-/

namespace QuantX

/-- NaN-propagating addition on embedded floats (`none` = NaN). -/
def nadd : Option ℚ → Option ℚ → Option ℚ
  | some a, some b => some (a + b)
  | _, _ => none

/-- NaN-propagating subtraction on embedded floats (`none` = NaN). -/
def nsub : Option ℚ → Option ℚ → Option ℚ
  | some a, some b => some (a - b)
  | _, _ => none

/-- NaN-propagating multiplication on embedded floats (`none` = NaN).
In IEEE arithmetic `0 * NaN = NaN`, which this definition reproduces. -/
def nmul : Option ℚ → Option ℚ → Option ℚ
  | some a, some b => some (a * b)
  | _, _ => none

/-- NaN-propagating division on embedded floats (`none` = NaN).
Division by zero yields a non-finite float (±inf or NaN) in numpy; the
embedding collapses every non-finite value to `none`. -/
def ndiv : Option ℚ → Option ℚ → Option ℚ
  | some a, some b => if b = 0 then none else some (a / b)
  | _, _ => none

/-- The closing fields of a completed round trip: exit time (master-calendar
position), exit price (post-slippage) and net proceeds, as stored by
`trades[t][-1].update({...})` in `PortfolioBacktest.run`. -/
structure ExitInfo where
  time : ℕ
  price : Option ℚ
  proceeds : Option ℚ
deriving DecidableEq, Repr

/-- One Trade Record of `PortfolioBacktest.run`: the dict appended on entry
(`entry_time`, `entry_price`, `shares`), plus the exit fields once the trade
is closed (`exitInfo = none` while the trade is open). -/
structure Trade where
  entryTime : ℕ
  entryPrice : Option ℚ
  shares : Option ℚ
  exitInfo : Option ExitInfo
deriving DecidableEq, Repr

/-- Per-instrument aligned inputs of `PortfolioBacktest.run`: the
master-calendar-aligned price column (`none` = NaN from a leading gap),
the aligned signal series (always defined thanks to `.fillna(0)`), and this
instrument's portfolio weight. -/
structure InstrInput where
  prices : List (Option ℚ)
  signals : List ℚ
  weight : ℚ
deriving DecidableEq, Repr

/-- Per-instrument mutable state of `PortfolioBacktest.run`:
`positions[t]`, `shares[t]` and the trade log `trades[t]`. -/
structure InstrState where
  pos : ℕ
  shares : Option ℚ
  trades : List Trade
deriving DecidableEq, Repr

/-- Initial per-instrument state: `positions[t] = 0`, `shares[t] = 0`,
`trades[t] = []`. -/
def initState : InstrState := ⟨0, some 0, []⟩

/-- `df.at[dt, 'Close']` for the aligned frame: price of the instrument at
master-calendar position `i`. -/
def priceAt (inp : InstrInput) (i : ℕ) : Option ℚ :=
  inp.prices.getD i none

/-- `self.signals[t].at[dt]`: aligned signal of the instrument at
master-calendar position `i`. -/
def sigAt (inp : InstrInput) (i : ℕ) : ℚ :=
  inp.signals.getD i 0

/-- `self.signals[t].shift(1).at[dt] if dt != self.master_index[0] else 0`:
the previous calendar date's signal, defined as 0 at the first date. -/
def prevSigAt (inp : InstrInput) (i : ℕ) : ℚ :=
  if i = 0 then 0 else sigAt inp (i - 1)

/-- `trades[t][-1].update({...})`: close the last trade of the log. -/
def closeLast (log : List Trade) (ex : ExitInfo) : List Trade :=
  match log with
  | [] => []
  | [tr] => [{ tr with exitInfo := some ex }]
  | tr :: rest => tr :: closeLast rest ex

/-- The body of the per-instrument branch inside the date loop of
`PortfolioBacktest.run`: entry when `sig == 1 and prev_sig == 0` (note: the
code does not test `positions[t]` here), exit when
`sig == 0 and prev_sig == 1 and positions[t] == 1`; returns the updated
instrument state and the updated cash balance. -/
def instrStep (slip comm w : ℚ) (i : ℕ) (price : Option ℚ) (sig prevSig : ℚ)
    (cash : Option ℚ) (st : InstrState) : InstrState × Option ℚ :=
  if sig = 1 ∧ prevSig = 0 then
    let cashAlloc := nmul cash (some w)
    let sh := ndiv cashAlloc price
    let cost := nadd (nmul (nmul sh price) (some (1 + slip))) (some comm)
    (⟨1, sh, st.trades ++ [⟨i, nmul price (some (1 + slip)), sh, none⟩]⟩,
      nsub cash cost)
  else if sig = 0 ∧ prevSig = 1 ∧ st.pos = 1 then
    let exitPrice := nmul price (some (1 - slip))
    let proceeds := nsub (nmul st.shares exitPrice) (some comm)
    (⟨0, some 0, closeLast st.trades ⟨i, exitPrice, proceeds⟩⟩,
      nadd cash proceeds)
  else (st, cash)

/-- The inner `for t, df in self.data.items()` loop of
`PortfolioBacktest.run` for one calendar date: steps every instrument in
order, threading the cash balance, and accumulates
`portfolio_value += shares[t] * price` from the just-updated share counts.
Returns (updated states, final cash, final position value). -/
def dateStep (slip comm : ℚ) (i : ℕ) :
    List InstrInput → List InstrState → Option ℚ → Option ℚ →
    List InstrState × Option ℚ × Option ℚ
  | inp :: instrs, st :: sts, cash, pv =>
    let r := instrStep slip comm inp.weight i (priceAt inp i) (sigAt inp i)
      (prevSigAt inp i) cash st
    let pv2 := nadd pv (nmul r.1.shares (priceAt inp i))
    let rest := dateStep slip comm i instrs sts r.2 pv2
    (r.1 :: rest.1, rest.2.1, rest.2.2)
  | _, _, cash, pv => ([], cash, pv)

/-- `PortfolioBacktest.run` truncated to the first `k` calendar dates:
returns (per-instrument states, cash, equity curve so far).  Each date
appends `equity[dt] = portfolio_cash + portfolio_value`. -/
def runUpTo (slip comm cap : ℚ) (instrs : List InstrInput) :
    ℕ → List InstrState × Option ℚ × List (Option ℚ)
  | 0 => (instrs.map fun _ => initState, some cap, [])
  | i + 1 =>
    let p := runUpTo slip comm cap instrs i
    let r := dateStep slip comm i instrs p.1 p.2.1 (some 0)
    (r.1, r.2.1, p.2.2 ++ [nadd r.2.1 r.2.2])

/-- `reindex(master, method='ffill')` at one date: the value at the most
recent native date `≤ d`, `none` (NaN) if the date precedes the first
observation.  Native tables are sorted by date. -/
def lastObsAt (tb : List (ℕ × ℚ)) (d : ℕ) : Option ℚ :=
  tb.foldl (fun acc p => if p.1 ≤ d then some p.2 else acc) none

/-- `self.data[t].reindex(self.master_index, method='ffill')`, values only. -/
def reindexFfill (tb : List (ℕ × ℚ)) (idx : List ℕ) : List (Option ℚ) :=
  idx.map (lastObsAt tb)

/-- `self.signals[t].reindex(self.master_index, method='ffill').fillna(0)`,
values only. -/
def reindexFfillFillna0 (s : List (ℕ × ℚ)) (idx : List ℕ) : List ℚ :=
  idx.map fun d => (lastObsAt s d).getD 0

/-- Insert a date into a sorted duplicate-free list, keeping it sorted and
duplicate-free (used to embed `sorted(set().union(...))`). -/
def insertSortedNodup (d : ℕ) : List ℕ → List ℕ
  | [] => [d]
  | x :: xs =>
    if d < x then d :: x :: xs
    else if d = x then x :: xs
    else x :: insertSortedNodup d xs

/-- `self.master_index = pd.Index(sorted(set().union(*(df.index for df in
self.data.values()))))`: the sorted union of the price tables' dates. -/
def masterIndex (tables : List (List (ℕ × ℚ))) : List ℕ :=
  (tables.foldr (fun tb acc => tb.map Prod.fst ++ acc) []).foldr
    insertSortedNodup []

/-- The constructor arguments of `PortfolioBacktest`: per-instrument price
tables (date, Close) and signal series in dict order, the weights, and the
scalar parameters. -/
structure RawInput where
  data : List (List (ℕ × ℚ))
  signals : List (List (ℕ × ℚ))
  weights : List ℚ
  initialCapital : ℚ
  slippage : ℚ
  commission : ℚ
deriving DecidableEq, Repr

/-- The aligned per-instrument inputs held in `self.data` / `self.signals`
after `PortfolioBacktest.__init__` has reindexed everything onto the master
calendar. -/
def alignedInputs (r : RawInput) : List InstrInput :=
  (r.data.zip (r.signals.zip r.weights)).map fun p =>
    ⟨reindexFfill p.1 (masterIndex r.data),
      reindexFfillFillna0 p.2.1 (masterIndex r.data), p.2.2⟩

/-- The equity curve returned by `PortfolioBacktest(...).run()`. -/
def backtestEquity (r : RawInput) : List (Option ℚ) :=
  (runUpTo r.slippage r.commission r.initialCapital (alignedInputs r)
    (masterIndex r.data).length).2.2

/-- The per-instrument trade logs returned by `PortfolioBacktest(...).run()`. -/
def backtestTrades (r : RawInput) : List (List Trade) :=
  (runUpTo r.slippage r.commission r.initialCapital (alignedInputs r)
    (masterIndex r.data).length).1.map InstrState.trades

/-- The scenario of the spec's testable property: one instrument, five
dates, prices [100,105,95,110,120], signals [0,1,1,0,0], zero slippage and
commission, weight 1, capital 1000. -/
def scenarioInput : RawInput :=
  ⟨[[(0, 100), (1, 105), (2, 95), (3, 110), (4, 120)]],
    [[(0, 0), (1, 1), (2, 1), (3, 0), (4, 0)]],
    [1], 1000, 0, 0⟩

/-! ### Signal generators (`strategies.py`) -/

/-- One row of the feature table consumed by `ema_rsi_vol_signals`
(`prepare_features` drops rows with insufficient history, so the fields are
defined). -/
structure EmaRow where
  emaFast : ℚ
  emaSlow : ℚ
  rsi : ℚ
  vol : ℚ
deriving DecidableEq, Repr

/-- `cross_up = (ema_fast > ema_slow) & (ema_fast.shift(1) <= ema_slow.shift(1))`:
at the first row `shift(1)` is NaN, and a comparison against NaN is False. -/
def emaCrossUp : Option EmaRow → EmaRow → Bool
  | some p, r => decide (r.emaFast > r.emaSlow) && decide (p.emaFast ≤ p.emaSlow)
  | none, _ => false

/-- `cross_down = (ema_fast < ema_slow) & (ema_fast.shift(1) >= ema_slow.shift(1))`. -/
def emaCrossDown : Option EmaRow → EmaRow → Bool
  | some p, r => decide (r.emaFast < r.emaSlow) && decide (p.emaFast ≥ p.emaSlow)
  | none, _ => false

/-- The loop body of `ema_rsi_vol_signals`: enter on a cross-up with the RSI
strictly below `rsi_high` and the volatility strictly below `vol_thresh`;
exit on a cross-down, or the RSI strictly above `rsi_high`, or the
volatility strictly above `vol_thresh`. -/
def emaRsiVolStep (rsiHigh volTh : ℚ) (prev : Option EmaRow) (row : EmaRow)
    (pos : ℕ) : ℕ :=
  if pos = 0 ∧ emaCrossUp prev row = true ∧ row.rsi < rsiHigh ∧ row.vol < volTh
    then 1
  else if pos = 1 ∧
      (emaCrossDown prev row = true ∨ row.rsi > rsiHigh ∨ row.vol > volTh)
    then 0
  else pos

/-- The date loop of `ema_rsi_vol_signals`, emitting the possibly updated
position at each row. -/
def emaRsiVolAux (rsiHigh volTh : ℚ) (prev : Option EmaRow) (pos : ℕ) :
    List EmaRow → List ℚ
  | [] => []
  | r :: rs =>
    let p := emaRsiVolStep rsiHigh volTh prev r pos
    (p : ℚ) :: emaRsiVolAux rsiHigh volTh (some r) p rs

/-- `ema_rsi_vol_signals(df, rsi_high, vol_thresh)`. -/
def emaRsiVolSignals (rsiHigh volTh : ℚ) (rows : List EmaRow) : List ℚ :=
  emaRsiVolAux rsiHigh volTh none 0 rows

/-- One row of the feature table consumed by `bollinger_signals`. -/
structure BollRow where
  close : ℚ
  bbLower : ℚ
  bbUpper : ℚ
deriving DecidableEq, Repr

/-- The loop body of `bollinger_signals`: buy when the close is strictly
below the lower band, exit when it is strictly above the midpoint
`(upper + lower)/2`.  No shift is involved. -/
def bollingerStep (row : BollRow) (pos : ℕ) : ℕ :=
  if pos = 0 ∧ row.close < row.bbLower then 1
  else if pos = 1 ∧ row.close > (row.bbUpper + row.bbLower) / 2 then 0
  else pos

/-- The date loop of `bollinger_signals`. -/
def bollingerAux (pos : ℕ) : List BollRow → List ℚ
  | [] => []
  | r :: rs =>
    let p := bollingerStep r pos
    (p : ℚ) :: bollingerAux p rs

/-- `bollinger_signals(df)`. -/
def bollingerSignals (rows : List BollRow) : List ℚ :=
  bollingerAux 0 rows

/-- One row of the feature table consumed by `macd_signals`. -/
structure MacdRow where
  macd : ℚ
  macdSignal : ℚ
deriving DecidableEq, Repr

/-- `cross_up = (macd > signal) & (macd.shift(1) <= signal.shift(1))`. -/
def macdCrossUp : Option MacdRow → MacdRow → Bool
  | some p, r => decide (r.macd > r.macdSignal) && decide (p.macd ≤ p.macdSignal)
  | none, _ => false

/-- `cross_down = (macd < signal) & (macd.shift(1) >= signal.shift(1))`. -/
def macdCrossDown : Option MacdRow → MacdRow → Bool
  | some p, r => decide (r.macd < r.macdSignal) && decide (p.macd ≥ p.macdSignal)
  | none, _ => false

/-- The loop body of `macd_signals`. -/
def macdStep (prev : Option MacdRow) (row : MacdRow) (pos : ℕ) : ℕ :=
  if pos = 0 ∧ macdCrossUp prev row = true then 1
  else if pos = 1 ∧ macdCrossDown prev row = true then 0
  else pos

/-- The date loop of `macd_signals`. -/
def macdAux (prev : Option MacdRow) (pos : ℕ) : List MacdRow → List ℚ
  | [] => []
  | r :: rs =>
    let p := macdStep prev r pos
    (p : ℚ) :: macdAux (some r) p rs

/-- `macd_signals(df)`. -/
def macdSignals (rows : List MacdRow) : List ℚ :=
  macdAux none 0 rows

/-! ### Metrics (`PortfolioBacktest.compute_metrics`, ratio helpers of `app.py`) -/

/-- `equity_curve.pct_change()`: the first element is NaN, element `i ≥ 1`
is `e[i]/e[i-1] - 1`. -/
def pctChangeRaw : List ℚ → List (Option ℚ)
  | [] => []
  | e :: es => none :: (List.zipWith (fun a b => b / a - 1) (e :: es) es).map some

/-- `.fillna(0)`. -/
def fillna0 (l : List (Option ℚ)) : List ℚ :=
  l.map fun x => x.getD 0

/-- `.dropna()`. -/
def dropna (l : List (Option ℚ)) : List ℚ :=
  l.filterMap id

/-- `equity_curve.pct_change().fillna(0)`, the return series of
`compute_metrics`. -/
def returnsFilled (e : List ℚ) : List ℚ :=
  fillna0 (pctChangeRaw e)

/-- `equity.pct_change().dropna()`, the return series of `sortino_ratio`
and `omega_ratio`. -/
def returnsDropna (e : List ℚ) : List ℚ :=
  dropna (pctChangeRaw e)

/-- pandas `Series.mean()`: NaN on an empty series. -/
def seriesMean (l : List ℚ) : Option ℚ :=
  if l.length = 0 then none else some (l.sum / l.length)

/-- pandas `Series.std()` (ddof = 1), represented by the variance under the
square root: the source's `std` is `√(this)`, and is NaN (`none`) when fewer
than two observations exist. -/
def sampleVar (l : List ℚ) : Option ℚ :=
  if l.length < 2 then none
  else some ((l.map fun x => (x - l.sum / l.length) ^ 2).sum / ((l.length : ℚ) - 1))

/-- `annualized_vol = returns.std() * np.sqrt(252)` of `compute_metrics`,
represented by its square `variance · 252` (faithful because the source's
value is the nonnegative `√(this)` and is NaN exactly when this is `none`). -/
def annVolSq (e : List ℚ) : Option ℚ :=
  (sampleVar (returnsFilled e)).map fun v => v * 252

/-- Modelled from the spec: "Annualized volatility: standard deviation of
daily percentage returns × √252" — the daily percentage returns of the curve
taken as they are (no artificial 0 for the first date); represented by its
square like `annVolSq`. -/
def annVolSpecSq (e : List ℚ) : Option ℚ :=
  (sampleVar (returnsDropna e)).map fun v => v * 252

/-- `total_return = equity_curve.iloc[-1]/equity_curve.iloc[0] - 1`. -/
def totalReturn (e : List ℚ) : ℚ :=
  e.getLast?.getD 0 / e.head?.getD 0 - 1

/-- The Sharpe ratio in its defined branch, kept symbolically: the source's
float is `((1 + totalReturn)^(252/nObs) - 1) / √(252 · retVar)`. -/
structure SharpeVal where
  totalReturn : ℚ
  nObs : ℕ
  retVar : ℚ
deriving DecidableEq, Repr

/-- `sharpe = ann_return / ann_vol if ann_vol > 0 else np.nan` of
`compute_metrics`.  `ann_vol = std·√252` is `> 0` exactly when the sample
variance of the returns is defined and positive (a NaN comparison is False),
so the guard is expressed on `sampleVar`; `none` is the NaN sentinel. -/
def sharpe (e : List ℚ) : Option SharpeVal :=
  match sampleVar (returnsFilled e) with
  | none => none
  | some v => if 0 < v then some ⟨totalReturn e, e.length, v⟩ else none

/-- The Sortino ratio in its defined branch, kept symbolically: the source's
float is `(meanRet - rf/252) / √downsideVar · √252`. -/
structure SortinoVal where
  meanRet : Option ℚ
  rf : ℚ
  downsideVar : ℚ
deriving DecidableEq, Repr

/-- `sortino_ratio(equity, risk_free)` of `app.py`: NaN when
`downside.std() == 0`; when `downside.std()` is itself NaN (fewer than two
negative-return days) the `== 0` guard is False but the NaN then propagates
through the division, so the result is NaN either way. -/
def sortino (e : List ℚ) (rf : ℚ) : Option SortinoVal :=
  let returns := returnsDropna e
  let downside := returns.filter fun x => x < 0
  match sampleVar downside with
  | none => none
  | some dv => if dv = 0 then none else some ⟨seriesMean returns, rf, dv⟩

/-- The CAGR in its defined branch, kept symbolically: the source's float is
`ratio^(1/years) - 1`. -/
structure CagrVal where
  ratio : ℚ
  years : ℚ
deriving DecidableEq, Repr

/-- `cagr(equity)` of `app.py`: `years = (index[-1] - index[0]).days/365.25`.
When `years` is zero, `1/years` raises `ZeroDivisionError` in Python
(`Except.error`); an empty curve raises `IndexError` on `index[-1]`, also
modelled as `Except.error`. -/
def cagr (eq : List (ℕ × ℚ)) : Except Unit CagrVal :=
  match eq with
  | [] => .error ()
  | p :: ps =>
    let lastP := ps.getLastD p
    let years : ℚ := ((lastP.1 : ℚ) - (p.1 : ℚ)) / (36525 / 100)
    if years = 0 then .error ()
    else .ok ⟨lastP.2 / p.2, years⟩

/-- `equity.cummax()` given the running maximum so far. -/
def cummaxAux (m : ℚ) : List ℚ → List ℚ
  | [] => []
  | x :: xs => max m x :: cummaxAux (max m x) xs

/-- `equity.cummax()`. -/
def cummax : List ℚ → List ℚ
  | [] => []
  | x :: xs => x :: cummaxAux x xs

/-- `drawdown = (cummax - equity)/cummax; drawdown.max()`: NaN (`none`) on
an empty series. -/
def maxDrawdown (vals : List ℚ) : Option ℚ :=
  (List.zipWith (fun m v => (m - v) / m) (cummax vals) vals).max?

/-- `calmar_ratio(equity)` of `app.py`: computes `cagr` first (which can
raise), then returns `cagr / max_dd` when `max_dd > 0` and NaN otherwise. -/
def calmar (eq : List (ℕ × ℚ)) : Except Unit (Option (CagrVal × ℚ)) :=
  match cagr eq with
  | .error e => .error e
  | .ok c =>
    match maxDrawdown (eq.map Prod.snd) with
    | none => .ok none
    | some mdd => .ok (if 0 < mdd then some (c, mdd) else none)

/-- `omega_ratio(equity, target)` of `app.py`. -/
def omega (e : List ℚ) (target : ℚ) : Option ℚ :=
  let returns := returnsDropna e
  let gains := ((returns.filter fun r => target < r).map fun r => r - target).sum
  let losses := -((returns.filter fun r => r < target).map fun r => r - target).sum
  if losses ≠ 0 then some (gains / losses) else none

/-! ### Run-level views of the simulator state, and the post-`__init__`
contents of the caller's dicts -/

/-- The per-instrument states after the first `i` calendar dates. -/
def statesAt (slip comm cap : ℚ) (instrs : List InstrInput) (i : ℕ) :
    List InstrState :=
  (runUpTo slip comm cap instrs i).1

/-- The cash balance after the first `i` calendar dates. -/
def cashAt (slip comm cap : ℚ) (instrs : List InstrInput) (i : ℕ) : Option ℚ :=
  (runUpTo slip comm cap instrs i).2.1

/-- The cash balance available at date `i` when instrument `t` is reached in
the inner loop: all instruments before `t` have already been stepped. -/
def cashBefore (slip comm cap : ℚ) (instrs : List InstrInput) (i t : ℕ) :
    Option ℚ :=
  (dateStep slip comm i (instrs.take t)
    ((statesAt slip comm cap instrs i).take t)
    (cashAt slip comm cap instrs i) (some 0)).2.1

/-- The entry/exit dates a single Trade Record contributes, entry first. -/
def tradeDates (tr : Trade) : List ℕ :=
  tr.entryTime :: (match tr.exitInfo with | some ex => [ex.time] | none => [])

/-- All entry/exit dates of a trade log, in log order. -/
def eventDates (log : List Trade) : List ℕ :=
  log.foldr (fun tr acc => tradeDates tr ++ acc) []

/-- The Signal Series data model: every value is 0 (flat) or 1 (long). -/
def BinarySignals (inp : InstrInput) : Prop :=
  ∀ x ∈ inp.signals, x = 0 ∨ x = 1

/-- The state invariant of `PortfolioBacktest.run` for one instrument after
the first `i` dates have been processed. -/
structure Inv (slip comm : ℚ) (inp : InstrInput) (i : ℕ) (st : InstrState) :
    Prop where
  posBounds : st.pos = 0 ∨ st.pos = 1
  lastOpen : st.pos = 1 ↔
    ∃ tr, st.trades.getLast? = some tr ∧ tr.exitInfo = none
  frontClosed : ∀ tr ∈ st.trades.dropLast, tr.exitInfo ≠ none
  chain : List.Chain' (· < ·) (eventDates st.trades)
  datesLt : ∀ d ∈ eventDates st.trades, d < i
  sharesEq : st.pos = 1 → ∀ tr, st.trades.getLast? = some tr →
    st.shares = tr.shares
  sigPrev : st.pos = 1 → 0 < i ∧ sigAt inp (i - 1) = 1
  closedOk : ∀ tr ∈ st.trades, ∀ ex, tr.exitInfo = some ex →
    ex.proceeds = nsub (nmul tr.shares ex.price) (some comm) ∧
    ex.price = nmul (priceAt inp ex.time) (some (1 - slip))

/-- `df.reindex(master, method='ffill')` as a date-indexed table: the
contents of the caller's `data_dict[t]` after `__init__` has run. -/
def reindexFfillTable (tb : List (ℕ × ℚ)) (idx : List ℕ) :
    List (ℕ × Option ℚ) :=
  idx.map fun d => (d, lastObsAt tb d)

/-- `signals[t].reindex(master, ffill).fillna(0)` as a date-indexed series:
the contents of the caller's `signals_dict[t]` after `__init__` has run. -/
def reindexFfillSeries0 (s : List (ℕ × ℚ)) (idx : List ℕ) : List (ℕ × ℚ) :=
  idx.map fun d => (d, (lastObsAt s d).getD 0)

/-- A raw (fully defined) table viewed as a date-indexed table with optional
values, for comparison with reindexed contents. -/
def toOptTable (tb : List (ℕ × ℚ)) : List (ℕ × Option ℚ) :=
  tb.map fun p => (p.1, some p.2)

/-- The contents of the caller's `data_dict` after `PortfolioBacktest.__init__`:
the constructor aliases the dict (`self.data = data_dict`) and replaces
every entry by `self.data[t].reindex(self.master_index, method='ffill')`. -/
def dataAfterInit (r : RawInput) : List (List (ℕ × Option ℚ)) :=
  r.data.map fun tb => reindexFfillTable tb (masterIndex r.data)

/-- The contents of the caller's `signals_dict` after `__init__`. -/
def signalsAfterInit (r : RawInput) : List (List (ℕ × ℚ)) :=
  r.signals.map fun s => reindexFfillSeries0 s (masterIndex r.data)

/-- Two instruments with different date ranges: instrument A trades on days
0 and 1, instrument B only on days 1 and 2, all signals flat. -/
def twoInstrRaw : RawInput :=
  ⟨[[(0, 1), (1, 2)], [(1, 5), (2, 6)]],
    [[(0, 0), (1, 0)], [(1, 0)]], [1 / 2, 1 / 2], 1000, 0, 0⟩

/-- One instrument, 10% slippage: prices 100 on both days, entry signal on
day 1, weight 1, capital 1000. -/
def slipScenario : RawInput :=
  ⟨[[(0, 100), (1, 100)]], [[(0, 0), (1, 1)]], [1], 1000, 1 / 10, 0⟩

/-- The equity value `portfolio_cash + portfolio_value` recorded at date `i`
(cash and position value after the whole inner instrument loop). -/
def equityVal (slip comm cap : ℚ) (instrs : List InstrInput) (i : ℕ) :
    Option ℚ :=
  nadd (dateStep slip comm i instrs (statesAt slip comm cap instrs i)
      (cashAt slip comm cap instrs i) (some 0)).2.1
    (dateStep slip comm i instrs (statesAt slip comm cap instrs i)
      (cashAt slip comm cap instrs i) (some 0)).2.2

/-- C3: single instrument, 5 dates, prices [100,105,95,110,120], signal
[0,1,1,0,0], zero slippage/commission, weight 1, capital 1000: entry at
date-index 1 at price 105 with shares = 1000/105, exit at date-index 3 at
price 110, equity sequence [1000, 1000, 1000·(95/105), 1000·(110/105),
1000·(110/105)] with post-exit equity flat in cash. -/
theorem scenario_equity_and_trades :
    backtestEquity scenarioInput =
      [some 1000, some 1000, some (1000 * (95 / 105)),
        some (1000 * (110 / 105)), some (1000 * (110 / 105))] ∧
    backtestTrades scenarioInput =
      [[⟨1, some 105, some (1000 / 105),
          some ⟨3, some 110, some (1000 / 105 * 110)⟩⟩]] := by
  norm_num [backtestEquity, backtestTrades, scenarioInput, runUpTo, dateStep,
    instrStep, alignedInputs, masterIndex, insertSortedNodup, reindexFfill,
    reindexFfillFillna0, lastObsAt, priceAt, sigAt, prevSigAt, nadd, nsub,
    nmul, ndiv, closeLast, initState]

/-- C5 counterexample: a one-row feature table whose close (1) is below the
lower band (2) makes `bollinger_signals` emit 1, not an all-flat series. -/
theorem bollinger_one_row_enters :
    bollingerSignals [⟨1, 2, 3⟩] = [1] ∧ (1 : ℚ) ≠ 0 := by
  constructor
  · norm_num [bollingerSignals, bollingerAux, bollingerStep]
  · norm_num

/-- C5 (amended): on feature tables with fewer than 2 rows, the trend
crossover and momentum-line crossover generators emit all-flat signals
(their entry needs a shift-based cross, impossible at row 0), but the band
mean-reversion generator emits 1 at a single row whose close is below the
lower band. -/
theorem short_table_signals (rsiHigh volTh : ℚ) (r : EmaRow) (b : BollRow)
    (m : MacdRow) :
    emaRsiVolSignals rsiHigh volTh [] = [] ∧
      bollingerSignals [] = [] ∧ macdSignals [] = [] ∧
      emaRsiVolSignals rsiHigh volTh [r] = [0] ∧ macdSignals [m] = [0] ∧
      bollingerSignals [b] = [if b.close < b.bbLower then 1 else 0] := by
  refine ⟨rfl, rfl, rfl, ?_, ?_, ?_⟩
  · simp [emaRsiVolSignals, emaRsiVolAux, emaRsiVolStep, emaCrossUp]
  · simp [macdSignals, macdAux, macdStep, macdCrossUp]
  · by_cases h : b.close < b.bbLower <;>
      simp [bollingerSignals, bollingerAux, bollingerStep, h]

/-- C10: the filter comparisons of `ema_rsi_vol_signals` are strict in both
directions, so at a date where the RSI exactly equals `rsi_high` or the
volatility exactly equals `vol_thresh` (the other filter value being at most
its threshold), the entry filters cannot be satisfied, the filter-based
exits cannot trigger, and an open position is held through the date unless
the EMA cross-down fires. -/
theorem threshold_equality_strict (rsiHigh volTh : ℚ) (prev : Option EmaRow)
    (row : EmaRow) (h : row.rsi = rsiHigh ∨ row.vol = volTh)
    (hr : row.rsi ≤ rsiHigh) (hv : row.vol ≤ volTh)
    (hcd : emaCrossDown prev row = false) :
    emaRsiVolStep rsiHigh volTh prev row 0 = 0 ∧
      emaRsiVolStep rsiHigh volTh prev row 1 = 1 := by
  constructor
  · rcases h with h | h <;>
      simp [emaRsiVolStep, h, lt_irrefl, not_lt.mpr hr, not_lt.mpr hv]
  · simp [emaRsiVolStep, hcd, not_lt.mpr hr, not_lt.mpr hv]

/-- C10 witness: RSI exactly 70, volatility 0.5 below its 0.6 threshold, no
cross-down: no entry from flat, and an open position is held. -/
theorem threshold_equality_strict_witness :
    emaRsiVolStep 70 (6 / 10) none ⟨1, 2, 70, 1 / 2⟩ 0 = 0 ∧
      emaRsiVolStep 70 (6 / 10) none ⟨1, 2, 70, 1 / 2⟩ 1 = 1 :=
  threshold_equality_strict 70 (6 / 10) none ⟨1, 2, 70, 1 / 2⟩
    (Or.inl rfl) (by norm_num) (by norm_num) rfl

lemma fillna0_map_some (xs : List ℚ) : fillna0 (xs.map some) = xs := by
  induction xs with
  | nil => rfl
  | cons a l ih =>
    show a :: fillna0 (l.map some) = a :: l
    rw [ih]

lemma dropna_map_some (xs : List ℚ) : dropna (xs.map some) = xs := by
  induction xs with
  | nil => rfl
  | cons a l ih =>
    show a :: dropna (l.map some) = a :: l
    rw [ih]

lemma returnsFilled_cons (a : ℚ) (es : List ℚ) :
    returnsFilled (a :: es) =
      0 :: List.zipWith (fun x y => y / x - 1) (a :: es) es := by
  show (0 : ℚ) ::
      fillna0 ((List.zipWith (fun x y => y / x - 1) (a :: es) es).map some) = _
  rw [fillna0_map_some]

lemma returnsDropna_eq (a : ℚ) (es : List ℚ) :
    returnsDropna (a :: es) =
      List.zipWith (fun x y => y / x - 1) (a :: es) es := by
  show dropna ((List.zipWith (fun x y => y / x - 1) (a :: es) es).map some) = _
  rw [dropna_map_some]

lemma returnsFilled_eq_cons (e : List ℚ) (he : e ≠ []) :
    returnsFilled e = 0 :: returnsDropna e := by
  cases e with
  | nil => exact absurd rfl he
  | cons a es => rw [returnsFilled_cons, returnsDropna_eq]

/-- C7 counterexample: for the equity curve [1,2,4] the daily percentage
returns form the constant series [1,1] (standard deviation 0 under any ddof
convention), yet the code's annualized volatility is √84 ≠ 0 = √0: the code
takes the standard deviation after replacing the first date's undefined
return by 0. -/
theorem annvol_differs_from_returns_std :
    returnsDropna ([1, 2, 4] : List ℚ) = [1, 1] ∧
      annVolSq ([1, 2, 4] : List ℚ) = some 84 ∧
      annVolSpecSq ([1, 2, 4] : List ℚ) = some 0 ∧
      Real.sqrt 84 ≠ Real.sqrt 0 := by
  have h1 : returnsDropna ([1, 2, 4] : List ℚ) = [1, 1] := by
    rw [returnsDropna_eq]
    norm_num
  have h2 : returnsFilled ([1, 2, 4] : List ℚ) = [0, 1, 1] := by
    rw [returnsFilled_cons]
    norm_num
  refine ⟨h1, ?_, ?_, ?_⟩
  · rw [annVolSq, h2]
    norm_num [sampleVar]
  · rw [annVolSpecSq, h1]
    norm_num [sampleVar]
  · rw [Real.sqrt_zero]
    exact ne_of_gt (Real.sqrt_pos.mpr (by norm_num))

/-- C7 (amended): the annualized volatility reported by `compute_metrics`
is √252 times the sample standard deviation (ddof = 1) of the daily
percentage returns with the first date's undefined return replaced by 0 —
the standard deviation of `0 ::` the actual daily returns, not of the daily
returns themselves. -/
theorem annvol_of_zero_prepended_returns (e : List ℚ) (he : e ≠ []) :
    returnsFilled e = 0 :: returnsDropna e ∧
      annVolSq e = (sampleVar (0 :: returnsDropna e)).map fun v => v * 252 := by
  have h := returnsFilled_eq_cons e he
  exact ⟨h, by rw [annVolSq, h]⟩

/-- C7 witness at the curve [1,2]. -/
theorem annvol_of_zero_prepended_returns_witness :
    returnsFilled [1, 2] = 0 :: returnsDropna [1, 2] ∧
      annVolSq [1, 2] =
        (sampleVar (0 :: returnsDropna [1, 2])).map fun v => v * 252 :=
  annvol_of_zero_prepended_returns [1, 2] (by simp)

lemma sampleVar_all_eq (l : List ℚ) (k : ℚ) (h : ∀ x ∈ l, x = k) :
    sampleVar l = none ∨ sampleVar l = some 0 := by
  by_cases hl : l.length < 2
  · left
    simp [sampleVar, hl]
  · right
    have hrep : l = List.replicate l.length k :=
      List.eq_replicate_iff.mpr ⟨rfl, h⟩
    have hlen : (l.length : ℚ) ≠ 0 := by
      have h2 : 2 ≤ l.length := not_lt.mp hl
      have : 0 < l.length := lt_of_lt_of_le (by norm_num) h2
      exact_mod_cast this.ne'
    rw [sampleVar, if_neg hl]
    conv_lhs => rw [hrep]
    simp [List.sum_replicate, List.map_replicate, nsmul_eq_mul,
      mul_div_cancel_left₀ _ hlen]

lemma zipWith_pct_replicate (c : ℚ) (hc : c ≠ 0) (n : ℕ) :
    List.zipWith (fun a b => b / a - 1) (List.replicate (n + 1) c)
      (List.replicate n c) = List.replicate n 0 := by
  induction n with
  | zero => rfl
  | succ m ih =>
    show (c / c - 1) ::
        List.zipWith (fun a b => b / a - 1) (List.replicate (m + 1) c)
          (List.replicate m c) = 0 :: List.replicate m 0
    rw [ih, div_self hc, sub_self]

lemma returnsFilled_replicate (c : ℚ) (hc : c ≠ 0) (n : ℕ) :
    returnsFilled (List.replicate n c) = List.replicate n 0 := by
  cases n with
  | zero => rfl
  | succ m =>
    rw [List.replicate_succ, returnsFilled, pctChangeRaw,
      ← List.replicate_succ, zipWith_pct_replicate c hc m]
    rw [show fillna0 (none :: (List.replicate m (0 : ℚ)).map some)
        = 0 :: fillna0 ((List.replicate m (0 : ℚ)).map some) from rfl,
      fillna0_map_some, List.replicate_succ]

lemma sharpe_replicate (n : ℕ) (c : ℚ) (hc : c ≠ 0) :
    sharpe (List.replicate n c) = none := by
  have h := sampleVar_all_eq (List.replicate n 0) 0 (by simp)
  rw [sharpe, returnsFilled_replicate c hc n]
  rcases h with h | h <;> simp [h]

/-- C8 counterexample: on the single-observation equity curve [(0, 1000)]
the maximum drawdown is 0 — the stated degeneracy condition for the Calmar
ratio — yet `calmar_ratio` raises `ZeroDivisionError` (`1/years` with
`years = 0` inside `cagr`) instead of returning the NaN sentinel. -/
theorem calmar_single_observation_raises :
    maxDrawdown [1000] = some 0 ∧ calmar [(0, 1000)] = Except.error () := by
  constructor
  · norm_num [maxDrawdown, cummax, cummaxAux, List.max?]
  · norm_num [calmar, cagr]

/-- C8 (amended): each statistic is the NaN sentinel (`none`), with no
exception, under its degeneracy condition — Sharpe when the return variance
is zero or undefined (in particular on any constant equity curve), Sortino
when no day has a negative return, Omega when the loss denominator is zero,
and Calmar when the maximum drawdown is zero, *provided* the CAGR itself
does not raise; on a single-observation (or single-date) equity curve the
Calmar computation instead raises a division-by-zero error from `cagr`. -/
theorem degenerate_metrics_nan (e : List ℚ) (eqd : List (ℕ × ℚ))
    (rf c : ℚ) (n : ℕ)
    (hvar : sampleVar (returnsFilled e) = some 0 ∨
      sampleVar (returnsFilled e) = none)
    (hneg : ∀ r ∈ returnsDropna e, 0 ≤ r)
    (hcagr : cagr eqd ≠ Except.error ())
    (hmdd : maxDrawdown (eqd.map Prod.snd) = some 0)
    (hc : c ≠ 0) :
    sharpe e = none ∧ sortino e rf = none ∧ omega e 0 = none ∧
      calmar eqd = Except.ok none ∧ sharpe (List.replicate n c) = none := by
  have hfil : (returnsDropna e).filter (fun x => decide (x < 0)) = [] :=
    List.filter_eq_nil_iff.mpr fun r hr => by
      simpa using not_lt.mpr (hneg r hr)
  refine ⟨?_, ?_, ?_, ?_, sharpe_replicate n c hc⟩
  · rw [sharpe]
    rcases hvar with h | h <;> simp [h]
  · simp [sortino, hfil, sampleVar]
  · simp [omega, hfil]
  · rcases hcg : cagr eqd with u | cv
    · cases u
      exact absurd hcg hcagr
    · simp [calmar, hcg, hmdd]

/-- C8 witness: a flat curve [1,1,1] for Sharpe/Sortino/Omega, a flat
two-date curve for Calmar, and the constant curve `replicate 4 1`. -/
theorem degenerate_metrics_nan_witness :
    sharpe [1, 1, 1] = none ∧ sortino [1, 1, 1] 0 = none ∧
      omega [1, 1, 1] 0 = none ∧ calmar [(0, 5), (10, 5)] = Except.ok none ∧
      sharpe (List.replicate 4 1) = none :=
  degenerate_metrics_nan [1, 1, 1] [(0, 5), (10, 5)] 0 1 4
    (Or.inl (by rw [returnsFilled_cons]; norm_num [sampleVar]))
    (by rw [returnsDropna_eq]; norm_num)
    (by
      have h : cagr [(0, 5), (10, 5)] = Except.ok ⟨1, 40 / 1461⟩ := by
        norm_num [cagr, List.getLastD]
      rw [h]
      exact fun hh => Except.noConfusion hh)
    (by norm_num [maxDrawdown, cummax, cummaxAux, List.max?])
    (by norm_num)

lemma insertSortedNodup_of_lt (d : ℕ) (l : List ℕ) (h : ∀ x ∈ l, d < x) :
    insertSortedNodup d l = d :: l := by
  cases l with
  | nil => rfl
  | cons x xs => rw [insertSortedNodup, if_pos (h x (List.mem_cons_self x xs))]

lemma foldr_insertSortedNodup_sorted (l : List ℕ)
    (h : List.Pairwise (· < ·) l) : l.foldr insertSortedNodup [] = l := by
  induction l with
  | nil => rfl
  | cons x xs ih =>
    rw [List.foldr_cons, ih (List.pairwise_cons.mp h).2,
      insertSortedNodup_of_lt x xs (List.pairwise_cons.mp h).1]

lemma masterIndex_single (tb : List (ℕ × ℚ))
    (h : List.Pairwise (· < ·) (tb.map Prod.fst)) :
    masterIndex [tb] = tb.map Prod.fst := by
  rw [masterIndex]
  rw [show ([tb].foldr (fun t acc => t.map Prod.fst ++ acc) []) =
      tb.map Prod.fst ++ [] from rfl, List.append_nil]
  exact foldr_insertSortedNodup_sorted _ h

lemma foldl_lastObs_nomatch (d : ℕ) (rest : List (ℕ × ℚ))
    (h : ∀ x ∈ rest, ¬ x.1 ≤ d) (acc : Option ℚ) :
    rest.foldl (fun a q => if q.1 ≤ d then some q.2 else a) acc = acc := by
  induction rest generalizing acc with
  | nil => rfl
  | cons x xs ih =>
    rw [List.foldl_cons, if_neg (h x (List.mem_cons_self x xs))]
    exact ih (fun y hy => h y (List.mem_cons_of_mem x hy)) acc

lemma foldl_lastObs_acc (d : ℕ) (rest : List (ℕ × ℚ)) (v : ℚ)
    (h : rest.foldl (fun a q => if q.1 ≤ d then some q.2 else a) none = some v)
    (acc : Option ℚ) :
    rest.foldl (fun a q => if q.1 ≤ d then some q.2 else a) acc = some v := by
  induction rest generalizing acc with
  | nil => exact absurd h (by simp)
  | cons x xs ih =>
    by_cases hx : x.1 ≤ d
    · rw [List.foldl_cons, if_pos hx] at h ⊢
      exact h
    · rw [List.foldl_cons, if_neg hx] at h ⊢
      exact ih h acc

lemma lastObsAt_self (tb : List (ℕ × ℚ))
    (h : List.Pairwise (· < ·) (tb.map Prod.fst)) :
    ∀ p ∈ tb, lastObsAt tb p.1 = some p.2 := by
  induction tb with
  | nil => intro p hp; cases hp
  | cons q rest ih =>
    simp only [List.map_cons, List.pairwise_cons] at h
    intro p hp
    rcases List.mem_cons.mp hp with rfl | hp
    · rw [lastObsAt, List.foldl_cons, if_pos (le_refl p.1)]
      exact foldl_lastObs_nomatch p.1 rest
        (fun x hx => not_le.mpr (h.1 x.1 (List.mem_map_of_mem Prod.fst hx))) _
    · have hrec : lastObsAt rest p.1 = some p.2 := ih h.2 p hp
      rw [lastObsAt, List.foldl_cons]
      exact foldl_lastObs_acc p.1 rest p.2 hrec _

lemma reindexFfillTable_self (tb : List (ℕ × ℚ))
    (h : List.Pairwise (· < ·) (tb.map Prod.fst)) :
    reindexFfillTable tb (tb.map Prod.fst) = toOptTable tb := by
  rw [reindexFfillTable, toOptTable, List.map_map]
  exact List.map_congr_left fun p hp => by
    simp only [Function.comp_apply]
    rw [lastObsAt_self tb h p hp]

lemma reindexFfillSeries0_self (sg : List (ℕ × ℚ))
    (h : List.Pairwise (· < ·) (sg.map Prod.fst)) :
    reindexFfillSeries0 sg (sg.map Prod.fst) = sg := by
  rw [reindexFfillSeries0, List.map_map]
  have he : ∀ p ∈ sg,
      ((fun d => (d, (lastObsAt sg d).getD 0)) ∘ Prod.fst) p = id p := by
    intro p hp
    simp only [Function.comp_apply, id]
    rw [lastObsAt_self sg h p hp]
    simp
  rw [List.map_congr_left he, List.map_id]

/-- C9 counterexample: two instruments with different date ranges.  After
construction, the caller's `data_dict` entries hold the reindexed
three-row tables (one with a NaN row), not the original two-row tables. -/
theorem init_overwrites_inputs :
    dataAfterInit twoInstrRaw =
      [[(0, some 1), (1, some 2), (2, some 2)],
        [(0, none), (1, some 5), (2, some 6)]] ∧
      dataAfterInit twoInstrRaw ≠ twoInstrRaw.data.map toOptTable := by
  have h : dataAfterInit twoInstrRaw =
      [[(0, some 1), (1, some 2), (2, some 2)],
        [(0, none), (1, some 5), (2, some 6)]] := by
    norm_num [dataAfterInit, reindexFfillTable, masterIndex,
      insertSortedNodup, lastObsAt, twoInstrRaw]
  refine ⟨h, ?_⟩
  rw [h]
  simp [twoInstrRaw, toOptTable]

/-- C9 (amended): the constructor aliases the caller's dicts and replaces
every entry with its master-calendar-aligned version; the caller's mappings
keep their original contents only when already aligned — e.g. a single
instrument whose signal series carries the same strictly-sorted dates as
its price table — and change in general (see the counterexample). -/
theorem init_preserves_only_aligned (tb sg : List (ℕ × ℚ)) (w cap sl cm : ℚ)
    (hs : List.Pairwise (· < ·) (tb.map Prod.fst))
    (hsg : sg.map Prod.fst = tb.map Prod.fst) :
    dataAfterInit ⟨[tb], [sg], [w], cap, sl, cm⟩ = [toOptTable tb] ∧
      signalsAfterInit ⟨[tb], [sg], [w], cap, sl, cm⟩ = [sg] := by
  have hm : masterIndex [tb] = tb.map Prod.fst := masterIndex_single tb hs
  constructor
  · show [reindexFfillTable tb (masterIndex [tb])] = [toOptTable tb]
    rw [hm, reindexFfillTable_self tb hs]
  · show [reindexFfillSeries0 sg (masterIndex [tb])] = [sg]
    rw [hm, ← hsg, reindexFfillSeries0_self sg (hsg ▸ hs)]

/-- C9 witness: a single instrument on days 0 and 5 whose signal series has
the same dates as its price table is preserved by construction. -/
theorem init_preserves_only_aligned_witness :
    dataAfterInit ⟨[[(0, 3), (5, 4)]], [[(0, 0), (5, 1)]], [1], 1000, 0, 0⟩ =
      [toOptTable [(0, 3), (5, 4)]] ∧
    signalsAfterInit
        ⟨[[(0, 3), (5, 4)]], [[(0, 0), (5, 1)]], [1], 1000, 0, 0⟩ =
      [[(0, 0), (5, 1)]] :=
  init_preserves_only_aligned [(0, 3), (5, 4)] [(0, 0), (5, 1)] 1 1000 0 0
    (by norm_num [List.pairwise_cons]) rfl

lemma nadd_none_left (b : Option ℚ) : nadd none b = none := by
  cases b <;> rfl

lemma nadd_none_right (a : Option ℚ) : nadd a none = none := by
  cases a <;> rfl

lemma nmul_none_right (a : Option ℚ) : nmul a none = none := by
  cases a <;> rfl

lemma dateStep_length (slip comm : ℚ) (i : ℕ) :
    ∀ (instrs : List InstrInput) (sts : List InstrState) (c pv : Option ℚ),
      ((dateStep slip comm i instrs sts c pv).1).length =
        min instrs.length sts.length := by
  intro instrs
  induction instrs with
  | nil =>
    intro sts c pv
    cases sts <;> simp [dateStep]
  | cons inp rest ih =>
    intro sts c pv
    cases sts with
    | nil => simp [dateStep]
    | cons st sts2 =>
      simp only [dateStep, List.length_cons, ih, Nat.succ_min_succ]

lemma statesAt_length (slip comm cap : ℚ) (instrs : List InstrInput) :
    ∀ i, (statesAt slip comm cap instrs i).length = instrs.length := by
  intro i
  induction i with
  | zero => simp [statesAt, runUpTo]
  | succ j ih =>
    show ((dateStep slip comm j instrs (statesAt slip comm cap instrs j)
      (cashAt slip comm cap instrs j) (some 0)).1).length = _
    rw [dateStep_length, ih, min_self]

lemma dateStep_append (slip comm : ℚ) (i : ℕ) :
    ∀ (l1 : List InstrInput) (s1 : List InstrState)
      (l2 : List InstrInput) (s2 : List InstrState) (c pv : Option ℚ),
      l1.length = s1.length →
      (dateStep slip comm i (l1 ++ l2) (s1 ++ s2) c pv).1 =
        (dateStep slip comm i l1 s1 c pv).1 ++
          (dateStep slip comm i l2 s2 (dateStep slip comm i l1 s1 c pv).2.1
            (dateStep slip comm i l1 s1 c pv).2.2).1 ∧
      (dateStep slip comm i (l1 ++ l2) (s1 ++ s2) c pv).2 =
        (dateStep slip comm i l2 s2 (dateStep slip comm i l1 s1 c pv).2.1
          (dateStep slip comm i l1 s1 c pv).2.2).2 := by
  intro l1
  induction l1 with
  | nil =>
    intro s1 l2 s2 c pv h
    have : s1 = [] := List.length_eq_zero.mp h.symm
    subst this
    simp [dateStep]
  | cons a l1a ih =>
    intro s1 l2 s2 c pv h
    cases s1 with
    | nil => exact absurd h (by simp)
    | cons b s1a =>
      have h2 : l1a.length = s1a.length := by simpa using h
      simp only [List.cons_append, dateStep, List.append_eq]
      exact ⟨by rw [(ih s1a l2 s2 _ _ h2).1], (ih s1a l2 s2 _ _ h2).2⟩

lemma statesAt_succ_get (slip comm cap : ℚ) (instrs : List InstrInput)
    (i t : ℕ) (inp : InstrInput) (st : InstrState)
    (hinp : instrs[t]? = some inp)
    (hst : (statesAt slip comm cap instrs i)[t]? = some st) :
    (statesAt slip comm cap instrs (i + 1))[t]? =
      some (instrStep slip comm inp.weight i (priceAt inp i) (sigAt inp i)
        (prevSigAt inp i) (cashBefore slip comm cap instrs i t) st).1 ∧
    cashBefore slip comm cap instrs i (t + 1) =
      (instrStep slip comm inp.weight i (priceAt inp i) (sigAt inp i)
        (prevSigAt inp i) (cashBefore slip comm cap instrs i t) st).2 := by
  set sts := statesAt slip comm cap instrs i with hsts
  set c0 := cashAt slip comm cap instrs i with hc0
  have ht : t < instrs.length := (List.getElem?_eq_some.mp hinp).1
  have hts : t < sts.length := by
    rw [hsts, statesAt_length]
    exact ht
  have hlen : (instrs.take t).length = (sts.take t).length := by
    rw [List.length_take, List.length_take, hsts, statesAt_length]
  have hidec : instrs = instrs.take t ++ (inp :: instrs.drop (t + 1)) := by
    conv_lhs => rw [← List.take_append_drop t instrs]
    rw [List.drop_eq_getElem_cons ht]
    have : instrs[t] = inp := by
      have := List.getElem?_eq_getElem ht
      rw [hinp] at this
      exact (Option.some.injEq _ _).mp this.symm
    rw [this]
  have hsdec : sts = sts.take t ++ (st :: sts.drop (t + 1)) := by
    conv_lhs => rw [← List.take_append_drop t sts]
    rw [List.drop_eq_getElem_cons hts]
    have : sts[t] = st := by
      have := List.getElem?_eq_getElem hts
      rw [hst] at this
      exact (Option.some.injEq _ _).mp this.symm
    rw [this]
  have hplen : ((dateStep slip comm i (instrs.take t) (sts.take t)
      c0 (some 0)).1).length = t := by
    rw [dateStep_length, List.length_take, List.length_take, hsts,
      statesAt_length, min_self, min_eq_left (le_of_lt ht)]
  have hmain := dateStep_append slip comm i (instrs.take t) (sts.take t)
    (inp :: instrs.drop (t + 1)) (st :: sts.drop (t + 1)) c0 (some 0) hlen
  constructor
  · show ((dateStep slip comm i instrs sts c0 (some 0)).1)[t]? = _
    conv_lhs => rw [hidec, hsdec]
    rw [hmain.1, List.getElem?_append_right (le_of_eq hplen), hplen,
      Nat.sub_self]
    simp only [cashBefore, ← hsts, ← hc0, dateStep, List.getElem?_cons_zero]
  · have htake : instrs.take (t + 1) = instrs.take t ++ [inp] := by
      rw [List.take_succ, hinp]
      rfl
    have htakes : sts.take (t + 1) = sts.take t ++ [st] := by
      rw [List.take_succ, hst]
      rfl
    have hmain2 := dateStep_append slip comm i (instrs.take t) (sts.take t)
      [inp] [st] c0 (some 0) hlen
    show (dateStep slip comm i (instrs.take (t + 1)) (sts.take (t + 1))
      c0 (some 0)).2.1 = _
    rw [htake, htakes]
    have h3 := congrArg Prod.fst hmain2.2
    simpa [dateStep, cashBefore, ← hsts, ← hc0] using h3

lemma runUpTo_equity_length (slip comm cap : ℚ) (instrs : List InstrInput) :
    ∀ k, (runUpTo slip comm cap instrs k).2.2.length = k := by
  intro k
  induction k with
  | zero => rfl
  | succ j ih =>
    show ((runUpTo slip comm cap instrs j).2.2 ++ [_]).length = j + 1
    rw [List.length_append, ih]
    rfl

lemma runUpTo_equity_get (slip comm cap : ℚ) (instrs : List InstrInput)
    (i : ℕ) : ∀ k, i < k →
      (runUpTo slip comm cap instrs k).2.2[i]? =
        some (equityVal slip comm cap instrs i) := by
  intro k
  induction k with
  | zero => intro h; exact absurd h (Nat.not_lt_zero i)
  | succ j ih =>
    intro h
    show ((runUpTo slip comm cap instrs j).2.2 ++
      [equityVal slip comm cap instrs j])[i]? = _
    rcases Nat.lt_succ_iff_lt_or_eq.mp h with h2 | rfl
    · rw [List.getElem?_append_left (by
        rw [runUpTo_equity_length]; exact h2)]
      exact ih h2
    · have hl := runUpTo_equity_length slip comm cap instrs i
      rw [List.getElem?_append_right (le_of_eq hl), hl, Nat.sub_self]
      rfl

lemma dateStep_pv_none (slip comm : ℚ) (i : ℕ) :
    ∀ (instrs : List InstrInput) (sts : List InstrState) (c pv : Option ℚ),
      sts.length = instrs.length →
      ((∃ inp ∈ instrs, priceAt inp i = none) ∨ pv = none) →
      (dateStep slip comm i instrs sts c pv).2.2 = none := by
  intro instrs
  induction instrs with
  | nil =>
    intro sts c pv hlen h
    rcases h with ⟨inp, hm, _⟩ | rfl
    · cases hm
    · have hε : sts = [] := List.length_eq_zero.mp hlen
      subst hε
      rfl
  | cons inp rest ih =>
    intro sts c pv hlen h
    cases sts with
    | nil => exact absurd hlen (by simp)
    | cons st sts2 =>
      have hlen2 : sts2.length = rest.length := by simpa using hlen
      show (dateStep slip comm i rest sts2 _
        (nadd pv (nmul _ (priceAt inp i)))).2.2 = none
      rcases h with ⟨inp2, hm, hnone⟩ | rfl
      · rcases List.mem_cons.mp hm with rfl | hm2
        · exact ih sts2 _ _ hlen2
            (Or.inr (by rw [hnone, nmul_none_right, nadd_none_right]))
        · exact ih sts2 _ _ hlen2 (Or.inl ⟨inp2, hm2, hnone⟩)
      · exact ih sts2 _ _ hlen2 (Or.inr (nadd_none_left _))

lemma instrStep_no_event (slip comm w : ℚ) (i : ℕ) (price : Option ℚ)
    (sig prevSig : ℚ) (cash : Option ℚ) (st : InstrState)
    (h1 : ¬(sig = 1 ∧ prevSig = 0))
    (h2 : ¬(sig = 0 ∧ prevSig = 1 ∧ st.pos = 1)) :
    instrStep slip comm w i price sig prevSig cash st = (st, cash) := by
  rw [instrStep, if_neg h1, if_neg h2]

/-- C1 counterexample: instrument B of `twoInstrRaw` has no observation on
day 0 (its forward-filled price is NaN there); the equity recorded for day
0 is the missing value, not the defined number 1000 (= cash plus the
mark-to-market of the instruments with defined data) that the claim
requires. -/
theorem gap_equity_missing_cex :
    backtestEquity twoInstrRaw = [none, some 1000, some 1000] ∧
      (none : Option ℚ) ≠ some 1000 := by
  constructor
  · norm_num [backtestEquity, twoInstrRaw, alignedInputs, masterIndex,
      insertSortedNodup, reindexFfill, reindexFfillFillna0, lastObsAt,
      runUpTo, dateStep, instrStep, initState, priceAt, sigAt, prevSigAt,
      nadd, nsub, nmul, ndiv]
  · simp

/-- C1 (amended): entries and exits are guarded only by the signal pattern,
never by price availability, so an instrument whose aligned signal is 0
today and yesterday — as in a leading gap of the intended pipeline, where
`fillna(0)` resolves gap signals to 0 — is neither entered nor exited at
that date; but an undefined price is not skipped in mark-to-market
(`0 * NaN = NaN` contaminates the sum), so the equity recorded at every
date where some instrument's price is undefined is the missing value, not
a defined number. -/
theorem gap_date_no_trade_equity_nan (slip comm cap : ℚ)
    (instrs : List InstrInput) (i t : ℕ) (inp : InstrInput) (st : InstrState)
    (hgap : ∃ inp2 ∈ instrs, priceAt inp2 i = none)
    (hinp : instrs[t]? = some inp)
    (hst : (statesAt slip comm cap instrs i)[t]? = some st)
    (hsig : sigAt inp i = 0) (hprev : prevSigAt inp i = 0) :
    (∀ N, i < N → (runUpTo slip comm cap instrs N).2.2[i]? = some none) ∧
      (statesAt slip comm cap instrs (i + 1))[t]? = some st := by
  constructor
  · intro N hN
    rw [runUpTo_equity_get slip comm cap instrs i N hN]
    have hpv : (dateStep slip comm i instrs (statesAt slip comm cap instrs i)
        (cashAt slip comm cap instrs i) (some 0)).2.2 = none :=
      dateStep_pv_none slip comm i instrs _ _ _
        (statesAt_length slip comm cap instrs i) (Or.inl hgap)
    rw [equityVal, hpv, nadd_none_right]
  · have h := (statesAt_succ_get slip comm cap instrs i t inp st hinp hst).1
    rw [h, instrStep_no_event _ _ _ _ _ _ _ _ _
      (fun hc => by rw [hsig] at hc; exact absurd hc.1 (by norm_num))
      (fun hc => by rw [hprev] at hc; exact absurd hc.2.1 (by norm_num))]

/-- C1 witness: in `twoInstrRaw`, instrument B (index 1) has an undefined
price and flat signals on day 0: the recorded day-0 equity is the missing
value and B's state is untouched. -/
theorem gap_date_no_trade_equity_nan_witness :
    (∀ N, 0 < N →
      (runUpTo 0 0 1000 (alignedInputs twoInstrRaw) N).2.2[0]? = some none) ∧
      (statesAt 0 0 1000 (alignedInputs twoInstrRaw) 1)[1]? =
        some initState := by
  have halign : alignedInputs twoInstrRaw =
      [⟨[some 1, some 2, some 2], [0, 0, 0], 1 / 2⟩,
        ⟨[none, some 5, some 6], [0, 0, 0], 1 / 2⟩] := by
    norm_num [alignedInputs, twoInstrRaw, masterIndex, insertSortedNodup,
      reindexFfill, reindexFfillFillna0, lastObsAt]
  exact gap_date_no_trade_equity_nan 0 0 1000 (alignedInputs twoInstrRaw) 0 1
    ⟨[none, some 5, some 6], [0, 0, 0], 1 / 2⟩ initState
    ⟨⟨[none, some 5, some 6], [0, 0, 0], 1 / 2⟩, by rw [halign]; simp, rfl⟩
    (by rw [halign]; rfl)
    (by simp [statesAt, runUpTo, halign])
    rfl rfl

lemma mem_of_getLast?_eq {α : Type} {l : List α} {a : α}
    (h : l.getLast? = some a) : a ∈ l := by
  have h2 := List.dropLast_append_getLast? a (Option.mem_def.mpr h)
  rw [← h2]
  exact List.mem_append_right _ (List.mem_singleton_self a)

lemma getLast?_decomp {α : Type} {l : List α} {a : α}
    (h : l.getLast? = some a) : l = l.dropLast ++ [a] :=
  (List.dropLast_append_getLast? a (Option.mem_def.mpr h)).symm

lemma mem_dropLast_or_last {α : Type} :
    ∀ (l : List α) (x : α), x ∈ l → x ∈ l.dropLast ∨ l.getLast? = some x := by
  intro l
  induction l with
  | nil => intro x hx; cases hx
  | cons a rest ih =>
    intro x hx
    cases rest with
    | nil =>
      rcases List.mem_singleton.mp hx with rfl
      exact Or.inr rfl
    | cons b rest2 =>
      rcases List.mem_cons.mp hx with rfl | hx2
      · exact Or.inl (List.mem_cons_self _ _)
      · rcases ih x hx2 with h | h
        · exact Or.inl (List.mem_cons_of_mem _ h)
        · exact Or.inr (List.getLast?_cons_cons.trans h)

lemma closeLast_eq (ex : ExitInfo) :
    ∀ (log : List Trade) (tr : Trade), log.getLast? = some tr →
      closeLast log ex = log.dropLast ++ [{ tr with exitInfo := some ex }] := by
  intro log
  induction log with
  | nil => intro tr h; cases h
  | cons a rest ih =>
    intro tr h
    cases rest with
    | nil =>
      have ha : a = tr := by simpa using h
      subst ha
      rfl
    | cons b rest2 =>
      have h2 : (b :: rest2).getLast? = some tr :=
        List.getLast?_cons_cons.symm.trans h
      show a :: closeLast (b :: rest2) ex = _
      rw [ih tr h2]
      rfl

lemma closeLast_length (ex : ExitInfo) :
    ∀ log : List Trade, (closeLast log ex).length = log.length := by
  intro log
  induction log with
  | nil => rfl
  | cons a rest ih =>
    cases rest with
    | nil => rfl
    | cons b rest2 =>
      show (a :: closeLast (b :: rest2) ex).length = _
      rw [List.length_cons, ih]
      rfl

lemma eventDates_append (l1 l2 : List Trade) :
    eventDates (l1 ++ l2) = eventDates l1 ++ eventDates l2 := by
  induction l1 with
  | nil => rfl
  | cons tr rest ih =>
    show tradeDates tr ++ eventDates (rest ++ l2) = _
    rw [ih]
    rw [show eventDates (tr :: rest) = tradeDates tr ++ eventDates rest
      from rfl, List.append_assoc]

lemma eventDates_concat (log : List Trade) (tr : Trade) :
    eventDates (log ++ [tr]) = eventDates log ++ tradeDates tr := by
  rw [eventDates_append]
  rw [show eventDates [tr] = tradeDates tr ++ [] from rfl, List.append_nil]

lemma chain_snoc_lt (l : List ℕ) (i : ℕ) (hc : List.Chain' (· < ·) l)
    (hlt : ∀ d ∈ l, d < i) : List.Chain' (· < ·) (l ++ [i]) := by
  rw [List.chain'_append]
  refine ⟨hc, List.chain'_singleton i, fun x hx y hy => ?_⟩
  have hy2 : i = y := by simpa using hy
  subst hy2
  exact hlt x (mem_of_getLast?_eq (Option.mem_def.mp hx))

lemma binary_sigAt (inp : InstrInput) (hbin : BinarySignals inp) (j : ℕ) :
    sigAt inp j = 0 ∨ sigAt inp j = 1 := by
  rw [sigAt, List.getD_eq_getElem?_getD]
  rcases h : inp.signals[j]? with _ | x
  · exact Or.inl rfl
  · exact hbin x (List.getElem?_mem h)

lemma instrStep_entry (slip comm w : ℚ) (i : ℕ) (price : Option ℚ)
    (sig prevSig : ℚ) (cash : Option ℚ) (st : InstrState)
    (h : sig = 1 ∧ prevSig = 0) :
    instrStep slip comm w i price sig prevSig cash st =
      (⟨1, ndiv (nmul cash (some w)) price,
        st.trades ++ [⟨i, nmul price (some (1 + slip)),
          ndiv (nmul cash (some w)) price, none⟩]⟩,
       nsub cash (nadd (nmul (nmul (ndiv (nmul cash (some w)) price) price)
         (some (1 + slip))) (some comm))) := by
  rw [instrStep, if_pos h]

lemma instrStep_exit (slip comm w : ℚ) (i : ℕ) (price : Option ℚ)
    (sig prevSig : ℚ) (cash : Option ℚ) (st : InstrState)
    (h1 : ¬(sig = 1 ∧ prevSig = 0))
    (h2 : sig = 0 ∧ prevSig = 1 ∧ st.pos = 1) :
    instrStep slip comm w i price sig prevSig cash st =
      (⟨0, some 0, closeLast st.trades
          ⟨i, nmul price (some (1 - slip)),
            nsub (nmul st.shares (nmul price (some (1 - slip))))
              (some comm)⟩⟩,
       nadd cash (nsub (nmul st.shares (nmul price (some (1 - slip))))
         (some comm))) := by
  rw [instrStep, if_neg h1, if_pos h2]

lemma entry_not_open (slip comm : ℚ) (inp : InstrInput) (i : ℕ)
    (st : InstrState) (hInv : Inv slip comm inp i st)
    (hprev : prevSigAt inp i = 0) : st.pos = 0 := by
  rcases hInv.posBounds with h | h
  · exact h
  · exfalso
    rcases hInv.sigPrev h with ⟨hi, hs⟩
    rw [prevSigAt, if_neg (Nat.pos_iff_ne_zero.mp hi), hs] at hprev
    exact one_ne_zero hprev

lemma all_closed_of_flat (slip comm : ℚ) (inp : InstrInput) (i : ℕ)
    (st : InstrState) (hInv : Inv slip comm inp i st) (hpos : st.pos = 0) :
    ∀ tr ∈ st.trades, tr.exitInfo ≠ none := by
  intro tr htr
  rcases mem_dropLast_or_last st.trades tr htr with h | h
  · exact hInv.frontClosed tr h
  · intro hop
    have h1 : st.pos = 1 := hInv.lastOpen.mpr ⟨tr, h, hop⟩
    rw [hpos] at h1
    exact absurd h1 (by norm_num)

lemma instrStep_inv (slip comm w : ℚ) (inp : InstrInput) (i : ℕ)
    (st : InstrState) (cash : Option ℚ)
    (hbin : BinarySignals inp)
    (hInv : Inv slip comm inp i st) :
    Inv slip comm inp (i + 1)
      (instrStep slip comm w i (priceAt inp i) (sigAt inp i)
        (prevSigAt inp i) cash st).1 := by
  by_cases h1 : sigAt inp i = 1 ∧ prevSigAt inp i = 0
  · rw [instrStep_entry slip comm w i (priceAt inp i) _ _ cash st h1]
    set sh := ndiv (nmul cash (some w)) (priceAt inp i) with hsh
    set T : Trade :=
      ⟨i, nmul (priceAt inp i) (some (1 + slip)), sh, none⟩ with hT
    show Inv slip comm inp (i + 1) ⟨1, sh, st.trades ++ [T]⟩
    have hpos0 : st.pos = 0 := entry_not_open slip comm inp i st hInv h1.2
    have hall := all_closed_of_flat slip comm inp i st hInv hpos0
    have hED : eventDates (st.trades ++ [T]) =
        eventDates st.trades ++ [i] := by
      rw [eventDates_concat]
      rfl
    refine ⟨Or.inr rfl, ?_, ?_, ?_, ?_, ?_, ?_, ?_⟩
    · exact ⟨fun _ => ⟨T, List.getLast?_concat _, rfl⟩, fun _ => rfl⟩
    · intro tr htr
      rw [List.dropLast_concat] at htr
      exact hall tr htr
    · rw [hED]
      exact chain_snoc_lt _ i hInv.chain hInv.datesLt
    · intro d hd
      rw [hED] at hd
      rcases List.mem_append.mp hd with h | h
      · exact Nat.lt_succ_of_lt (hInv.datesLt d h)
      · rcases List.mem_singleton.mp h with rfl
        exact Nat.lt_succ_self d
    · intro _ tr htr
      rw [List.getLast?_concat] at htr
      rcases Option.some.inj htr with rfl
      rfl
    · intro _
      exact ⟨Nat.succ_pos i, by simpa using h1.1⟩
    · intro tr htr ex hex
      rcases List.mem_append.mp htr with h | h
      · exact hInv.closedOk tr h ex hex
      · rcases List.mem_singleton.mp h with rfl
        cases hex
  · by_cases h2 : sigAt inp i = 0 ∧ prevSigAt inp i = 1 ∧ st.pos = 1
    · rcases hInv.lastOpen.mp h2.2.2 with ⟨tr, hlast, hopen⟩
      rw [instrStep_exit slip comm w i (priceAt inp i) _ _ cash st h1 h2]
      set EP := nmul (priceAt inp i) (some (1 - slip)) with hEP
      set PR := nsub (nmul st.shares EP) (some comm) with hPR
      set EX : ExitInfo := ⟨i, EP, PR⟩ with hEX
      show Inv slip comm inp (i + 1) ⟨0, some 0, closeLast st.trades EX⟩
      set tr2 : Trade := { tr with exitInfo := some EX } with htr2
      have hcl : closeLast st.trades EX = st.trades.dropLast ++ [tr2] :=
        closeLast_eq EX st.trades tr hlast
      have hdec : st.trades = st.trades.dropLast ++ [tr] :=
        getLast?_decomp hlast
      have hED0 : eventDates st.trades =
          eventDates st.trades.dropLast ++ [tr.entryTime] := by
        conv_lhs => rw [hdec]
        rw [eventDates_concat]
        rw [show tradeDates tr = [tr.entryTime] from by
          simp [tradeDates, hopen]]
      have hED : eventDates (closeLast st.trades EX) =
          eventDates st.trades ++ [i] := by
        rw [hcl, eventDates_concat, hED0, List.append_assoc]
        rfl
      refine ⟨Or.inl rfl, ?_, ?_, ?_, ?_, ?_, ?_, ?_⟩
      · constructor
        · intro h0
          exact absurd h0 (by norm_num)
        · rintro ⟨tr3, hl3, ho3⟩
          rw [hcl, List.getLast?_concat] at hl3
          rcases Option.some.inj hl3 with rfl
          cases ho3
      · intro tr3 htr3
        rw [hcl, List.dropLast_concat] at htr3
        exact hInv.frontClosed tr3 htr3
      · rw [hED]
        exact chain_snoc_lt _ i hInv.chain hInv.datesLt
      · intro d hd
        rw [hED] at hd
        rcases List.mem_append.mp hd with h | h
        · exact Nat.lt_succ_of_lt (hInv.datesLt d h)
        · rcases List.mem_singleton.mp h with rfl
          exact Nat.lt_succ_self d
      · intro h0
        exact absurd h0 (by norm_num)
      · intro h0
        exact absurd h0 (by norm_num)
      · intro tr3 htr3 ex hex
        rw [hcl] at htr3
        rcases List.mem_append.mp htr3 with h | h
        · exact hInv.closedOk tr3 (List.dropLast_subset _ h) ex hex
        · rcases List.mem_singleton.mp h with rfl
          have hex2 : EX = ex := Option.some.inj hex
          rcases hex2 with rfl
          have hsh := hInv.sharesEq h2.2.2 tr hlast
          constructor
          · rw [show EX.proceeds = PR from rfl, hPR, hsh]
          · rfl
    · rw [instrStep_no_event slip comm w i (priceAt inp i) _ _ cash st h1 h2]
      show Inv slip comm inp (i + 1) st
      have hsig1 : st.pos = 1 → sigAt inp i = 1 := by
        intro hp
        rcases binary_sigAt inp hbin i with h0 | hone
        · exfalso
          rcases hInv.sigPrev hp with ⟨hi, hs⟩
          exact h2 ⟨h0, by
            rw [prevSigAt, if_neg (Nat.pos_iff_ne_zero.mp hi)]
            exact hs, hp⟩
        · exact hone
      exact ⟨hInv.posBounds, hInv.lastOpen, hInv.frontClosed, hInv.chain,
        fun d hd => Nat.lt_succ_of_lt (hInv.datesLt d hd), hInv.sharesEq,
        fun hp => ⟨Nat.succ_pos i, by simpa using hsig1 hp⟩,
        hInv.closedOk⟩

lemma runUpTo_inv (slip comm cap : ℚ) (instrs : List InstrInput)
    (hbin : ∀ inp ∈ instrs, BinarySignals inp) :
    ∀ (i t : ℕ) (inp : InstrInput) (st : InstrState),
      instrs[t]? = some inp →
      (statesAt slip comm cap instrs i)[t]? = some st →
      Inv slip comm inp i st := by
  intro i
  induction i with
  | zero =>
    intro t inp st hinp hst
    have h0 : (statesAt slip comm cap instrs 0)[t]? = some initState := by
      show ((instrs.map fun _ => initState))[t]? = _
      rw [List.getElem?_map, hinp]
      rfl
    rw [h0] at hst
    rcases Option.some.inj hst with rfl
    refine ⟨Or.inl rfl, ?_, ?_, ?_, ?_, ?_, ?_, ?_⟩
    · constructor
      · intro h
        exact absurd h (by norm_num [initState])
      · rintro ⟨tr, h, _⟩
        cases h
    · intro tr htr
      cases htr
    · exact List.chain'_nil
    · intro d hd
      cases hd
    · intro h
      exact absurd h (by norm_num [initState])
    · intro h
      exact absurd h (by norm_num [initState])
    · intro tr htr
      cases htr
  | succ j ih =>
    intro t inp st hinp hst
    have ht : t < instrs.length := (List.getElem?_eq_some.mp hinp).1
    have hts : t < (statesAt slip comm cap instrs j).length := by
      rw [statesAt_length]
      exact ht
    have hstj : (statesAt slip comm cap instrs j)[t]? =
        some ((statesAt slip comm cap instrs j).get ⟨t, hts⟩) := by
      rw [List.getElem?_eq_getElem hts]
      rfl
    have hmain := (statesAt_succ_get slip comm cap instrs j t inp _
      hinp hstj).1
    rw [hmain] at hst
    rcases Option.some.inj hst with rfl
    exact instrStep_inv slip comm inp.weight inp j _ _
      (hbin inp (List.getElem?_mem hinp)) (ih t inp _ hinp hstj)

/-- C4: for every run with binary signal series, every instrument and its
final trade log: the flattened entry/exit dates (entry₀, exit₀, entry₁, …)
form a strictly increasing chain, and every trade except possibly the last
is closed.  Strict increase means entry and exit never share a date (at
most one of the two per instrument per date), every exit comes strictly
after the entry that opened its own trade, and all earlier trades were
closed before that entry — no exit while flat. -/
theorem entry_exit_discipline (slip comm cap : ℚ) (instrs : List InstrInput)
    (hbin : ∀ inp ∈ instrs, BinarySignals inp) (N t : ℕ)
    (inp : InstrInput) (st : InstrState)
    (hinp : instrs[t]? = some inp)
    (hst : (statesAt slip comm cap instrs N)[t]? = some st) :
    List.Chain' (· < ·) (eventDates st.trades) ∧
      ∀ tr ∈ st.trades.dropLast, tr.exitInfo ≠ none :=
  ⟨(runUpTo_inv slip comm cap instrs hbin N t inp st hinp hst).chain,
    (runUpTo_inv slip comm cap instrs hbin N t inp st hinp hst).frontClosed⟩

/-- C4 witness: the five-date scenario run, whose single instrument ends
with the closed trade (entry day 1, exit day 3). -/
theorem entry_exit_discipline_witness :
    List.Chain' (· < ·) (eventDates [⟨1, some 105, some (1000 / 105),
      some ⟨3, some 110, some (1000 / 105 * 110)⟩⟩]) ∧
      ∀ tr ∈ (List.dropLast [(⟨1, some 105, some (1000 / 105),
        some ⟨3, some 110, some (1000 / 105 * 110)⟩⟩ : Trade)]),
        tr.exitInfo ≠ none := by
  have halign : alignedInputs scenarioInput =
      [⟨[some 100, some 105, some 95, some 110, some 120],
        [0, 1, 1, 0, 0], 1⟩] := by
    norm_num [alignedInputs, scenarioInput, masterIndex, insertSortedNodup,
      reindexFfill, reindexFfillFillna0, lastObsAt]
  have hst : (statesAt 0 0 1000 (alignedInputs scenarioInput) 5)[0]? =
      some ⟨0, some 0, [⟨1, some 105, some (1000 / 105),
        some ⟨3, some 110, some (1000 / 105 * 110)⟩⟩]⟩ := by
    rw [halign]
    norm_num [statesAt, runUpTo, dateStep, instrStep, initState, priceAt,
      sigAt, prevSigAt, nadd, nsub, nmul, ndiv, closeLast]
  exact entry_exit_discipline 0 0 1000 (alignedInputs scenarioInput)
    (by
      rw [halign]
      intro inp hm
      rcases List.mem_singleton.mp hm with rfl
      intro x hx
      simp at hx
      tauto)
    5 0 ⟨[some 100, some 105, some 95, some 110, some 120],
      [0, 1, 1, 0, 0], 1⟩ _ (by rw [halign]; rfl) hst

/-- C2 counterexample: with 10% slippage and price 100, the code converts
the 1000 allocation to shares at the raw price (1000/100 = 10 shares), not
at `price * (1 + slippage)` = 110 (which would give 1000/110 ≈ 9.09
shares) as the claim states. -/
theorem entry_conversion_cex :
    backtestTrades slipScenario = [[⟨1, some 110, some 10, none⟩]] ∧
      (10 : ℚ) ≠ 1000 / (100 * (1 + 1 / 10)) := by
  constructor
  · norm_num [backtestTrades, slipScenario, alignedInputs, masterIndex,
      insertSortedNodup, reindexFfill, reindexFfillFillna0, lastObsAt,
      runUpTo, dateStep, instrStep, initState, priceAt, sigAt, prevSigAt,
      nadd, nsub, nmul, ndiv]
  · norm_num

/-- C2 (amended): for a run with binary signals, the entry rule for an
instrument fires at a date exactly when today's signal is 1 and yesterday's
is 0 (yesterday's defined as 0 at the first date) — the position is then
necessarily flat; it allocates `weight · cash-at-that-moment` (cash spent
on earlier instruments of the same date is gone), converts the allocation
to shares at the RAW price (`shares = allocation / price`, not at
`price·(1+slippage)`), records the entry price as `price·(1+slippage)`,
appends a new open Trade Record, and deducts
`shares·price·(1+slippage) + commission` from cash. -/
theorem entry_rule_characterization (slip comm cap : ℚ)
    (instrs : List InstrInput)
    (hbin : ∀ inp ∈ instrs, BinarySignals inp) (i t : ℕ)
    (inp : InstrInput) (st : InstrState)
    (hinp : instrs[t]? = some inp)
    (hst : (statesAt slip comm cap instrs i)[t]? = some st) :
    ((sigAt inp i = 1 ∧ prevSigAt inp i = 0) ↔
      ((statesAt slip comm cap instrs (i + 1))[t]?).map
        (fun s => s.trades.length) = some (st.trades.length + 1)) ∧
    ((sigAt inp i = 1 ∧ prevSigAt inp i = 0) →
      st.pos = 0 ∧
      (statesAt slip comm cap instrs (i + 1))[t]? = some
        ⟨1, ndiv (nmul (cashBefore slip comm cap instrs i t)
            (some inp.weight)) (priceAt inp i),
          st.trades ++ [⟨i, nmul (priceAt inp i) (some (1 + slip)),
            ndiv (nmul (cashBefore slip comm cap instrs i t)
              (some inp.weight)) (priceAt inp i), none⟩]⟩ ∧
      cashBefore slip comm cap instrs i (t + 1) =
        nsub (cashBefore slip comm cap instrs i t)
          (nadd (nmul (nmul (ndiv (nmul (cashBefore slip comm cap instrs i t)
            (some inp.weight)) (priceAt inp i)) (priceAt inp i))
            (some (1 + slip))) (some comm))) := by
  have hrun := runUpTo_inv slip comm cap instrs hbin i t inp st hinp hst
  have h := statesAt_succ_get slip comm cap instrs i t inp st hinp hst
  by_cases hg : sigAt inp i = 1 ∧ prevSigAt inp i = 0
  · refine ⟨⟨fun _ => ?_, fun _ => hg⟩, fun _ =>
      ⟨entry_not_open slip comm inp i st hrun hg.2, ?_, ?_⟩⟩
    · rw [h.1, instrStep_entry slip comm inp.weight i (priceAt inp i) _ _
        (cashBefore slip comm cap instrs i t) st hg]
      simp [List.length_append]
    · rw [h.1, instrStep_entry slip comm inp.weight i (priceAt inp i) _ _
        (cashBefore slip comm cap instrs i t) st hg]
    · rw [h.2, instrStep_entry slip comm inp.weight i (priceAt inp i) _ _
        (cashBefore slip comm cap instrs i t) st hg]
  · refine ⟨⟨fun hg2 => absurd hg2 hg, fun hlen => ?_⟩,
      fun hg2 => absurd hg2 hg⟩
    exfalso
    by_cases h2 : sigAt inp i = 0 ∧ prevSigAt inp i = 1 ∧ st.pos = 1
    · rw [h.1, instrStep_exit slip comm inp.weight i (priceAt inp i) _ _
        (cashBefore slip comm cap instrs i t) st hg h2] at hlen
      simp [closeLast_length] at hlen
    · rw [h.1, instrStep_no_event slip comm inp.weight i (priceAt inp i) _ _
        (cashBefore slip comm cap instrs i t) st hg h2] at hlen
      simp at hlen

/-- C2 witness: the 10%-slippage scenario at date 1, instrument 0. -/
theorem entry_rule_characterization_witness :
    ((sigAt ⟨[some 100, some 100], [0, 1], 1⟩ 1 = 1 ∧
        prevSigAt ⟨[some 100, some 100], [0, 1], 1⟩ 1 = 0) ↔
      ((statesAt (1 / 10) 0 1000
          (alignedInputs slipScenario) (1 + 1))[0]?).map
        (fun s => s.trades.length) = some (([] : List Trade).length + 1)) ∧
    ((sigAt ⟨[some 100, some 100], [0, 1], 1⟩ 1 = 1 ∧
        prevSigAt ⟨[some 100, some 100], [0, 1], 1⟩ 1 = 0) →
      initState.pos = 0 ∧
      (statesAt (1 / 10) 0 1000 (alignedInputs slipScenario) (1 + 1))[0]? =
        some ⟨1, ndiv (nmul
            (cashBefore (1 / 10) 0 1000 (alignedInputs slipScenario) 1 0)
            (some (⟨[some 100, some 100], [0, 1], 1⟩ : InstrInput).weight))
            (priceAt ⟨[some 100, some 100], [0, 1], 1⟩ 1),
          [] ++ [⟨1, nmul (priceAt ⟨[some 100, some 100], [0, 1], 1⟩ 1)
              (some (1 + 1 / 10)),
            ndiv (nmul
              (cashBefore (1 / 10) 0 1000 (alignedInputs slipScenario) 1 0)
              (some (⟨[some 100, some 100], [0, 1], 1⟩ : InstrInput).weight))
              (priceAt ⟨[some 100, some 100], [0, 1], 1⟩ 1), none⟩]⟩ ∧
      cashBefore (1 / 10) 0 1000 (alignedInputs slipScenario) 1 (0 + 1) =
        nsub (cashBefore (1 / 10) 0 1000 (alignedInputs slipScenario) 1 0)
          (nadd (nmul (nmul (ndiv (nmul
            (cashBefore (1 / 10) 0 1000 (alignedInputs slipScenario) 1 0)
            (some (⟨[some 100, some 100], [0, 1], 1⟩ : InstrInput).weight))
            (priceAt ⟨[some 100, some 100], [0, 1], 1⟩ 1))
            (priceAt ⟨[some 100, some 100], [0, 1], 1⟩ 1))
            (some (1 + 1 / 10))) (some 0))) := by
  have halign : alignedInputs slipScenario =
      [⟨[some 100, some 100], [0, 1], 1⟩] := by
    norm_num [alignedInputs, slipScenario, masterIndex, insertSortedNodup,
      reindexFfill, reindexFfillFillna0, lastObsAt]
  exact entry_rule_characterization (1 / 10) 0 1000
    (alignedInputs slipScenario)
    (by
      rw [halign]
      intro inp hm
      rcases List.mem_singleton.mp hm with rfl
      intro x hx
      simp at hx
      tauto)
    1 0 ⟨[some 100, some 100], [0, 1], 1⟩ initState
    (by rw [halign]; rfl)
    (by
      rw [halign]
      norm_num [statesAt, runUpTo, dateStep, instrStep, initState, priceAt,
        sigAt, prevSigAt, nadd, nsub, nmul, ndiv])

/-- C6: every closed Trade Record of a run satisfies
`proceeds = shares · exit_price - commission` with
`exit_price = price-at-exit-date · (1 - slippage)`; and a full entry-then-
exit cycle with zero slippage, zero commission and the same (nonzero) price
at both legs returns the cash balance to exactly its starting value. -/
theorem trade_proceeds_and_cycle (slip comm cap w p c : ℚ)
    (instrs : List InstrInput)
    (hbin : ∀ inp ∈ instrs, BinarySignals inp) (N t i j : ℕ)
    (inp : InstrInput) (st st0 : InstrState)
    (hinp : instrs[t]? = some inp)
    (hst : (statesAt slip comm cap instrs N)[t]? = some st)
    (tr : Trade) (ex : ExitInfo) (htr : tr ∈ st.trades)
    (hex : tr.exitInfo = some ex) (hp : p ≠ 0) :
    (ex.proceeds = nsub (nmul tr.shares ex.price) (some comm) ∧
      ex.price = nmul (priceAt inp ex.time) (some (1 - slip))) ∧
    (instrStep 0 0 w j (some p) 0 1
        (instrStep 0 0 w i (some p) 1 0 (some c) st0).2
        (instrStep 0 0 w i (some p) 1 0 (some c) st0).1).2 = some c := by
  refine ⟨(runUpTo_inv slip comm cap instrs hbin N t inp st hinp hst).closedOk
    tr htr ex hex, ?_⟩
  rw [instrStep_entry 0 0 w i (some p) 1 0 (some c) st0 ⟨rfl, rfl⟩]
  rw [instrStep_exit 0 0 w j (some p) 0 1 _ _ (by norm_num) ⟨rfl, rfl, rfl⟩]
  simp only [nmul, ndiv, nadd, nsub]
  rw [if_neg hp]
  simp only [nmul, nadd, nsub, Option.some.injEq]
  field_simp

/-- C6 witness: the closed trade of the five-date scenario, and a concrete
cycle (weight 1, price 100, starting cash 7). -/
theorem trade_proceeds_and_cycle_witness :
    ((⟨3, some 110, some (1000 / 105 * 110)⟩ : ExitInfo).proceeds =
        nsub (nmul (⟨1, some 105, some (1000 / 105),
            some ⟨3, some 110, some (1000 / 105 * 110)⟩⟩ : Trade).shares
          (⟨3, some 110, some (1000 / 105 * 110)⟩ : ExitInfo).price)
          (some 0) ∧
      (⟨3, some 110, some (1000 / 105 * 110)⟩ : ExitInfo).price =
        nmul (priceAt ⟨[some 100, some 105, some 95, some 110, some 120],
            [0, 1, 1, 0, 0], 1⟩
          (⟨3, some 110, some (1000 / 105 * 110)⟩ : ExitInfo).time)
          (some (1 - 0))) ∧
    (instrStep 0 0 1 1 (some 100) 0 1
        (instrStep 0 0 1 0 (some 100) 1 0 (some 7) initState).2
        (instrStep 0 0 1 0 (some 100) 1 0 (some 7) initState).1).2 =
      some 7 := by
  have halign : alignedInputs scenarioInput =
      [⟨[some 100, some 105, some 95, some 110, some 120],
        [0, 1, 1, 0, 0], 1⟩] := by
    norm_num [alignedInputs, scenarioInput, masterIndex, insertSortedNodup,
      reindexFfill, reindexFfillFillna0, lastObsAt]
  have hst : (statesAt 0 0 1000 (alignedInputs scenarioInput) 5)[0]? =
      some ⟨0, some 0, [⟨1, some 105, some (1000 / 105),
        some ⟨3, some 110, some (1000 / 105 * 110)⟩⟩]⟩ := by
    rw [halign]
    norm_num [statesAt, runUpTo, dateStep, instrStep, initState, priceAt,
      sigAt, prevSigAt, nadd, nsub, nmul, ndiv, closeLast]
  exact trade_proceeds_and_cycle 0 0 1000 1 100 7
    (alignedInputs scenarioInput)
    (by
      rw [halign]
      intro inp hm
      rcases List.mem_singleton.mp hm with rfl
      intro x hx
      simp at hx
      tauto)
    5 0 0 1 ⟨[some 100, some 105, some 95, some 110, some 120],
      [0, 1, 1, 0, 0], 1⟩ _ initState (by rw [halign]; rfl) hst
    ⟨1, some 105, some (1000 / 105),
      some ⟨3, some 110, some (1000 / 105 * 110)⟩⟩
    ⟨3, some 110, some (1000 / 105 * 110)⟩
    (List.mem_singleton_self _) rfl (by norm_num)

end QuantX
